import Mathlib

/-!
Verification of the ledger engine of `blockchain.py` (class `Blockchain`).

The Python code is shallowly embedded as executable Lean definitions:

* Python/JSON values (the dict-shaped blocks, transaction records, and
  arbitrary candidate chains received from peers) are the mutual inductive
  `JValue` / `JArr` / `JMembers`.  Python floats (only used for `time()`
  timestamps) are represented by their `repr` string, which is an injective
  encoding of floats and is exactly what both `json.dumps` and f-strings
  print for them.
* `hashlib.sha256(...).hexdigest()` is a full executable SHA-256 over byte
  lists, with 32-bit words as `Nat` reduced `% 2^32`.
* `json.dumps(block, sort_keys=True)` is `dumps`: recursive key-sorting
  (`sortJ`) followed by serialization with the default `", "` / `": "`
  separators and `ensure_ascii` escaping.
* Statements that can raise (`chain[0]`, `block['previous_hash']`,
  `self.chain[-1]`, `requests.get`) are modelled in `Except String`, the
  error string naming the Python exception class.
* The wall clock (`time()`) and the network (`requests.get`) are inputs:
  timestamps are passed as an explicit argument, and `resolve_conflicts`
  takes the list of peer responses it would observe.

Every definition follows the source line by line; comments cite the
corresponding lines of `blockchain.py`.
-/

set_option maxRecDepth 8192

deriving instance DecidableEq for Except

/-! ### Strings: code-point comparison (Python compares strings by code point) -/

def charLt (a b : Char) : Bool := a.toNat < b.toNat

def charsLt : List Char → List Char → Bool
  | [], [] => false
  | [], _ :: _ => true
  | _ :: _, [] => false
  | a :: as, b :: bs => if charLt a b then true else if a == b then charsLt as bs else false

/-- Python `a <= b` on strings (lexicographic by code point); used for `sort_keys`. -/
def strLe (a b : String) : Bool := a == b || charsLt a.data b.data

def strTake (s : String) (n : Nat) : String := String.mk (s.data.take n)

/-! ### Python/JSON values -/

mutual
inductive JValue where
  | jnull
  | jbool (b : Bool)
  | jint (n : Int)
  | jfloat (r : String)
  | jstr (s : String)
  | jlist (xs : JArr)
  | jobj (kvs : JMembers)
inductive JArr where
  | nil
  | cons (hd : JValue) (tl : JArr)
inductive JMembers where
  | nil
  | cons (key : String) (val : JValue) (tl : JMembers)
end
deriving instance DecidableEq for JValue, JArr, JMembers

def jarrOfList : List JValue → JArr
  | [] => .nil
  | x :: xs => .cons x (jarrOfList xs)

/-- Python dict lookup `d[key]` on a first-match basis (dict keys are unique). -/
def findMember : JMembers → String → Option JValue
  | .nil, _ => none
  | .cons k v rest, key => if k == key then some v else findMember rest key

/-- Python subscript `value[key]`: `KeyError` on a dict without the key,
`TypeError` when the value is not a dict at all. -/
def jGet : JValue → String → Except String JValue
  | .jobj kvs, key =>
    match findMember kvs key with
    | some v => .ok v
    | none => .error "KeyError"
  | _, _ => .error "TypeError"

/-- Python truthiness (`bool(x)`), as used by `previous_hash or ...` and
`if new_chain:`.  A float is falsy exactly when it is a zero, whose repr is
`0.0` or `-0.0`. -/
def pyTruthy : JValue → Bool
  | .jnull => false
  | .jbool b => b
  | .jint n => !(n == 0)
  | .jfloat r => !(r == "0.0" || r == "-0.0")
  | .jstr s => !(s == "")
  | .jlist .nil => false
  | .jlist (.cons _ _) => true
  | .jobj .nil => false
  | .jobj (.cons _ _ _) => true

/-! ### SHA-256 (`hashlib.sha256`), over byte lists, words as `Nat % 2^32` -/

def w32 (n : Nat) : Nat := n % 4294967296

def rotr32 (x n : Nat) : Nat := w32 (Nat.lor (Nat.shiftRight x n) (Nat.shiftLeft x (32 - n)))

def shaCh (e f g : Nat) : Nat := Nat.xor (Nat.land e f) (Nat.land (Nat.xor e 4294967295) g)

def shaMaj (a b c : Nat) : Nat := Nat.xor (Nat.xor (Nat.land a b) (Nat.land a c)) (Nat.land b c)

def bigSigma0 (a : Nat) : Nat := Nat.xor (Nat.xor (rotr32 a 2) (rotr32 a 13)) (rotr32 a 22)

def bigSigma1 (e : Nat) : Nat := Nat.xor (Nat.xor (rotr32 e 6) (rotr32 e 11)) (rotr32 e 25)

def smallSigma0 (x : Nat) : Nat := Nat.xor (Nat.xor (rotr32 x 7) (rotr32 x 18)) (Nat.shiftRight x 3)

def smallSigma1 (x : Nat) : Nat := Nat.xor (Nat.xor (rotr32 x 17) (rotr32 x 19)) (Nat.shiftRight x 10)

def shaK : List Nat :=
  [1116352408, 1899447441, 3049323471, 3921009573, 961987163, 1508970993,
   2453635748, 2870763221, 3624381080, 310598401, 607225278, 1426881987,
   1925078388, 2162078206, 2614888103, 3248222580, 3835390401, 4022224774,
   264347078, 604807628, 770255983, 1249150122, 1555081692, 1996064986,
   2554220882, 2821834349, 2952996808, 3210313671, 3336571891, 3584528711,
   113926993, 338241895, 666307205, 773529912, 1294757372, 1396182291,
   1695183700, 1986661051, 2177026350, 2456956037, 2730485921, 2820302411,
   3259730800, 3345764771, 3516065817, 3600352804, 4094571909, 275423344,
   430227734, 506948616, 659060556, 883997877, 958139571, 1322822218,
   1537002063, 1747873779, 1955562222, 2024104815, 2227730452, 2361852424,
   2428436474, 2756734187, 3204031479, 3329325298]

def shaH0 : List Nat :=
  [1779033703, 3144134277, 1013904242, 2773480762, 1359893119, 2600822924, 528734635, 1541459225]

def bytesBE8 (n : Nat) : List Nat :=
  (List.range 8).map (fun i => n / 2 ^ (8 * (7 - i)) % 256)

def padMsg (msg : List Nat) : List Nat :=
  let L := msg.length
  let k := (119 - L % 64) % 64
  msg ++ [128] ++ List.replicate k 0 ++ bytesBE8 (8 * L)

def toWords : List Nat → List Nat
  | b0 :: b1 :: b2 :: b3 :: rest => (((b0 * 256 + b1) * 256 + b2) * 256 + b3) :: toWords rest
  | _ => []

def wordChunks : List Nat → List (List Nat)
  | w0 :: w1 :: w2 :: w3 :: w4 :: w5 :: w6 :: w7 ::
    w8 :: w9 :: w10 :: w11 :: w12 :: w13 :: w14 :: w15 :: rest =>
      [w0, w1, w2, w3, w4, w5, w6, w7, w8, w9, w10, w11, w12, w13, w14, w15] :: wordChunks rest
  | _ => []

def extendSchedule (ws : List Nat) : Nat → List Nat
  | 0 => ws
  | n + 1 =>
    let cur := extendSchedule ws n
    let m := cur.length
    cur ++ [w32 (smallSigma1 (cur.getD (m - 2) 0) + cur.getD (m - 7) 0 +
                 smallSigma0 (cur.getD (m - 15) 0) + cur.getD (m - 16) 0)]

def compressStep (st : List Nat) (kt wt : Nat) : List Nat :=
  match st with
  | [a, b, c, d, e, f, g, h] =>
    let t1 := w32 (h + bigSigma1 e + shaCh e f g + kt + wt)
    let t2 := w32 (bigSigma0 a + shaMaj a b c)
    [w32 (t1 + t2), a, b, c, w32 (d + t1), e, f, g]
  | other => other

def processChunk (h : List Nat) (chunk : List Nat) : List Nat :=
  let ws := extendSchedule chunk 48
  let st := (shaK.zip ws).foldl (fun st kw => compressStep st kw.1 kw.2) h
  List.zipWith (fun x y => w32 (x + y)) h st

def sha256words (msg : List Nat) : List Nat :=
  (wordChunks (toWords (padMsg msg))).foldl processChunk shaH0

def hexDigit (n : Nat) : Char := if n < 10 then Char.ofNat (48 + n) else Char.ofNat (87 + n)

def word8hex (w : Nat) : List Char := (List.range 8).map (fun i => hexDigit (w / 16 ^ (7 - i) % 16))

/-- `hashlib.sha256(msg).hexdigest()` (lowercase hex). -/
def sha256hex (msg : List Nat) : String := String.mk ((sha256words msg).map word8hex).flatten

def utf8Char (c : Char) : List Nat :=
  let n := c.toNat
  if n < 128 then [n]
  else if n < 2048 then [192 + n / 64, 128 + n % 64]
  else if n < 65536 then [224 + n / 4096, 128 + n / 64 % 64, 128 + n % 64]
  else [240 + n / 262144, 128 + n / 4096 % 64, 128 + n / 64 % 64, 128 + n % 64]

/-- Python `str.encode()` (UTF-8). -/
def utf8 (s : String) : List Nat := (s.data.map utf8Char).flatten

def sha256hexOfString (s : String) : String := sha256hex (utf8 s)

/-! ### `json.dumps(block, sort_keys=True)` -/

def jsonHex4 (n : Nat) : List Char := (List.range 4).map (fun i => hexDigit (n / 16 ^ (3 - i) % 16))

/-- The default `json.dumps` string escaping (`ensure_ascii=True`):
quote and backslash escaped, the usual control shortcuts, other control and
all non-ASCII characters as `\uXXXX` (surrogate pairs above the BMP). -/
def jsonEscapeChar (c : Char) : List Char :=
  let n := c.toNat
  if n = 34 then [Char.ofNat 92, Char.ofNat 34]
  else if n = 92 then [Char.ofNat 92, Char.ofNat 92]
  else if n = 8 then [Char.ofNat 92, 'b']
  else if n = 9 then [Char.ofNat 92, 't']
  else if n = 10 then [Char.ofNat 92, 'n']
  else if n = 12 then [Char.ofNat 92, 'f']
  else if n = 13 then [Char.ofNat 92, 'r']
  else if n < 32 then Char.ofNat 92 :: 'u' :: jsonHex4 n
  else if n < 127 then [c]
  else if n < 65536 then Char.ofNat 92 :: 'u' :: jsonHex4 n
  else
    let m := n - 65536
    (Char.ofNat 92 :: 'u' :: jsonHex4 (55296 + m / 1024)) ++
    (Char.ofNat 92 :: 'u' :: jsonHex4 (56320 + m % 1024))

def jsonQuote (s : String) : String :=
  String.mk (Char.ofNat 34 :: (s.data.map jsonEscapeChar).flatten ++ [Char.ofNat 34])

def insertMember (k : String) (v : JValue) : JMembers → JMembers
  | .nil => .cons k v .nil
  | .cons k2 v2 rest =>
    if strLe k k2 then .cons k v (.cons k2 v2 rest) else .cons k2 v2 (insertMember k v rest)
termination_by structural x => x

/-- Sort a dict's members by key (stable insertion sort; `sort_keys=True`). -/
def sortMembers : JMembers → JMembers
  | .nil => .nil
  | .cons k v rest => insertMember k v (sortMembers rest)
termination_by structural x => x

mutual
def sortJ : JValue → JValue
  | .jobj kvs => .jobj (sortMembers (sortJMembers kvs))
  | .jlist xs => .jlist (sortJArr xs)
  | v => v
termination_by structural x => x
def sortJArr : JArr → JArr
  | .nil => .nil
  | .cons x xs => .cons (sortJ x) (sortJArr xs)
termination_by structural x => x
def sortJMembers : JMembers → JMembers
  | .nil => .nil
  | .cons k v kvs => .cons k (sortJ v) (sortJMembers kvs)
termination_by structural x => x
end

mutual
def dumpsRaw : JValue → String
  | .jnull => "null"
  | .jbool b => if b then "true" else "false"
  | .jint n => toString n
  | .jfloat r => r
  | .jstr s => jsonQuote s
  | .jlist xs => "[" ++ dumpsArr xs ++ "]"
  | .jobj kvs => "\x7b" ++ dumpsMembers kvs ++ "\x7d"
termination_by structural x => x
def dumpsArr : JArr → String
  | .nil => ""
  | .cons x .nil => dumpsRaw x
  | .cons x (.cons y rest) => dumpsRaw x ++ ", " ++ dumpsArr (.cons y rest)
termination_by structural x => x
def dumpsMembers : JMembers → String
  | .nil => ""
  | .cons k v .nil => jsonQuote k ++ ": " ++ dumpsRaw v
  | .cons k v (.cons k2 v2 rest) =>
      jsonQuote k ++ ": " ++ dumpsRaw v ++ ", " ++ dumpsMembers (.cons k2 v2 rest)
termination_by structural x => x
end

/-- `json.dumps(v, sort_keys=True)` with the default separators. -/
def dumps (v : JValue) : String := dumpsRaw (sortJ v)

/-! ### `Blockchain.hash` (blockchain.py lines 141-152) -/

/-- `hashlib.sha256(json.dumps(block, sort_keys=True).encode()).hexdigest()`. -/
def blockHash (block : JValue) : String := sha256hexOfString (dumps block)

/-! ### Python `str()` / `repr()` fragment (the f-string in `valid_proof`) -/

def pyQuoteChar (c : Char) : List Char :=
  if c == Char.ofNat 39 then [Char.ofNat 92, Char.ofNat 39]
  else if c == Char.ofNat 92 then [Char.ofNat 92, Char.ofNat 92]
  else [c]

/-- Python `repr` of a string: single quotes, quote and backslash escaped.
(The double-quote-preference and control-character cases of CPython repr are
not modelled; no value hashed by the engine contains such characters.) -/
def pyQuote (s : String) : String :=
  String.mk (Char.ofNat 39 :: (s.data.map pyQuoteChar).flatten ++ [Char.ofNat 39])

mutual
def pyRepr : JValue → String
  | .jnull => "None"
  | .jbool b => if b then "True" else "False"
  | .jint n => toString n
  | .jfloat r => r
  | .jstr s => pyQuote s
  | .jlist xs => "[" ++ pyReprArr xs ++ "]"
  | .jobj kvs => "\x7b" ++ pyReprMembers kvs ++ "\x7d"
termination_by structural x => x
def pyReprArr : JArr → String
  | .nil => ""
  | .cons x .nil => pyRepr x
  | .cons x (.cons y rest) => pyRepr x ++ ", " ++ pyReprArr (.cons y rest)
termination_by structural x => x
def pyReprMembers : JMembers → String
  | .nil => ""
  | .cons k v .nil => pyQuote k ++ ": " ++ pyRepr v
  | .cons k v (.cons k2 v2 rest) =>
      pyQuote k ++ ": " ++ pyRepr v ++ ", " ++ pyReprMembers (.cons k2 v2 rest)
termination_by structural x => x
end

/-- Python `str(v)` as interpolated by an f-string: a string verbatim,
anything else via `repr`. -/
def pyStr : JValue → String
  | .jstr s => s
  | v => pyRepr v

/-! ### `Blockchain.valid_proof` (lines 174-189) and `proof_of_work` (155-172) -/

/-- `guess = f'{last_proof}{proof}'.encode()`;
`guess_hash = hashlib.sha256(guess).hexdigest()`;
`return guess_hash[:4] == "0000"`. -/
def valid_proof (last_proof proof : JValue) : Bool :=
  strTake (sha256hexOfString (pyStr last_proof ++ pyStr proof)) 4 == "0000"

def validProofInt (last_proof proof : Int) : Bool :=
  valid_proof (.jint last_proof) (.jint proof)

def validProofNum (last_proof : Int) (proof : Nat) : Bool :=
  validProofInt last_proof (proof : Int)

/-- `proof_of_work`: `proof = 0; while not valid_proof(last_proof, proof): proof += 1`.
The loop is a linear search from 0, so its denotation — on the inputs where it
terminates at all, i.e. where some solution exists — is the least `Nat`
satisfying `valid_proof`. -/
def proof_of_work (last_proof : Int) (h : ∃ p : Nat, validProofNum last_proof p = true) : Nat :=
  Nat.find h

/-! ### The `Blockchain` state and its mutators (lines 9-68) -/

/-- The mutable attributes set in `__init__`: `self.chain`,
`self.current_transactions`, `self.nodes` (the set modelled as its list of
insertions, deduplicated by `setAdd`). -/
structure Blockchain where
  chain : List JValue
  current_transactions : List JValue
  nodes : List String

/-- The block dict literal of `new_block` (lines 27-33), in source key order:
index, timestamp, transaction, proof, previous_hash. -/
def mkBlock (idx : Int) (ts : String) (txs : List JValue) (proof previous_hash : JValue) : JValue :=
  .jobj (.cons "index" (.jint idx) (.cons "timestamp" (.jfloat ts)
    (.cons "transaction" (.jlist (jarrOfList txs))
    (.cons "proof" proof (.cons "previous_hash" previous_hash .nil)))))

def sealWith (bc : Blockchain) (proof ph : JValue) (ts : String) : JValue × Blockchain :=
  let block := mkBlock ((bc.chain.length : Int) + 1) ts bc.current_transactions proof ph
  (block, { bc with chain := bc.chain ++ [block], current_transactions := [] })

/-- `Blockchain.new_block(proof, previous_hash=None)` (lines 19-39).
`ts` is the value of `time()`.  `previous_hash or self.hash(self.chain[-1])`
keeps a truthy argument and otherwise hashes the last block — `self.chain[-1]`
raising `IndexError` on an empty chain. -/
def new_block (bc : Blockchain) (proof previous_hash : JValue) (ts : String) :
    Except String (JValue × Blockchain) :=
  if pyTruthy previous_hash then .ok (sealWith bc proof previous_hash ts)
  else
    match bc.chain.getLast? with
    | some b => .ok (sealWith bc proof (.jstr (blockHash b)) ts)
    | none => .error "IndexError"

/-- The transaction dict literal of `new_transaction` (lines 50-54), in source
key order. -/
def txRecord (sender recipient amount : JValue) : JValue :=
  .jobj (.cons "sender" sender (.cons "recipient" recipient (.cons "amount" amount .nil)))

/-- Python `x + 1` as applied to `self.last_block['index']`.  Block indexes
are always ints (`True`/`False` also support `+ 1`); the remaining cases are
either a Python `TypeError` or (for floats) unreached by any claim and left
as an error marker. -/
def pyIndexSucc : JValue → Except String JValue
  | .jint n => .ok (.jint (n + 1))
  | .jbool b => .ok (.jint (if b then 2 else 1))
  | _ => .error "TypeError"

/-- `Blockchain.new_transaction` (lines 42-56): appends the record to the
pool, then computes `self.last_block['index'] + 1`.  The append happens
before the return expression, so the state component is total even when the
returned expression raises. -/
def new_transaction (bc : Blockchain) (sender recipient amount : JValue) :
    Blockchain × Except String JValue :=
  let bc2 := { bc with
    current_transactions := bc.current_transactions ++ [txRecord sender recipient amount] }
  (bc2,
    match bc2.chain.getLast? with
    | some last => (jGet last "index").bind pyIndexSucc
    | none => .error "IndexError")

/-! ### `Blockchain.register_node` (lines 59-68) and `urllib.parse.urlparse` -/

def schemeChar (c : Char) : Bool :=
  c.isAlpha || c.isDigit || c == '+' || c == '-' || c == '.'

/-- The scheme-splitting step of `urllib.parse.urlsplit`: the text before the
first `:` is stripped as a scheme only when it is nonempty, starts with an
ASCII letter and consists of scheme characters. -/
def dropScheme (cs : List Char) : List Char :=
  match cs.findIdx? (fun c => c == ':') with
  | some i =>
    if 0 < i && (match cs.head? with | some c => c.isAlpha | none => false)
        && (cs.take i).all schemeChar
    then cs.drop (i + 1) else cs
  | none => cs

/-- `urlsplit`'s `_splitnetloc`: the netloc runs until `/`, `?` or `#`. -/
def splitNetloc (cs : List Char) : List Char :=
  cs.takeWhile (fun c => !(c == '/' || c == '?' || c == '#'))

/-- `urlparse(address).netloc`: nonempty only when (after any scheme) the
remainder starts with `//`. -/
def netlocOf (address : String) : String :=
  match dropScheme address.data with
  | '/' :: '/' :: rest => String.mk (splitNetloc rest)
  | _ => ""

/-- Python `set.add`. -/
def setAdd (l : List String) (x : String) : List String :=
  if x ∈ l then l else l ++ [x]

/-- `Blockchain.register_node(address)`:
`self.nodes.add(urlparse(address).netloc)`. -/
def register_node (bc : Blockchain) (address : String) : Blockchain :=
  { bc with nodes := setAdd bc.nodes (netlocOf address) }

/-! ### `Blockchain.valid_chain` (lines 71-99) -/

/-- The body of one iteration of the `valid_chain` loop (lines 88-94):
first `block['previous_hash'] != self.hash(last_block)` (Python `!=` against
a string is structural inequality), then
`not self.valid_proof(last_block['proof'], block['proof'])`.  The two
`print` calls are side effects with no bearing on the result and are not
modelled. -/
def checkPair (last_block block : JValue) : Except String Bool :=
  match jGet block "previous_hash" with
  | .error e => .error e
  | .ok ph =>
    if ph = JValue.jstr (blockHash last_block) then
      match jGet last_block "proof" with
      | .error e => .error e
      | .ok p1 =>
        match jGet block "proof" with
        | .error e => .error e
        | .ok p2 => if valid_proof p1 p2 then .ok true else .ok false
    else .ok false

/-- The `while current_index < len(chain)` loop, walking pairs and failing
fast. -/
def vcLoop (last_block : JValue) : List JValue → Except String Bool
  | [] => .ok true
  | block :: rest =>
    match checkPair last_block block with
    | .error e => .error e
    | .ok true => vcLoop block rest
    | .ok false => .ok false

/-- `Blockchain.valid_chain(chain)`: `last_block = chain[0]` (an
`IndexError` on an empty candidate), then the pairwise loop. -/
def valid_chain (chain : List JValue) : Except String Bool :=
  match chain with
  | [] => .error "IndexError"
  | last_block :: rest => vcLoop last_block rest

/-! ### `Blockchain.resolve_conflicts` (lines 101-135) -/

/-- What one peer's `requests.get(f'http://{node}/chain')` produces:
`down` for an unreachable peer (a raised `ConnectionError`), `up` for a
response carrying a status code and the parsed `length` and `chain` fields
of its JSON body. -/
inductive PeerResponse where
  | down
  | up (status : Nat) (plen : Int) (chain : List JValue)

/-- The `for node in neighbours` loop, threading `max_length` and
`new_chain` (initially `len(self.chain)` and `None`).  Responses other than
status 200 are skipped; `length > max_length and self.valid_chain(chain)`
short-circuits, and a qualifying peer raises `max_length` and records its
chain. -/
def rcLoop : List PeerResponse → Int → Option (List JValue) → Except String (Option (List JValue))
  | [], _, new_chain => .ok new_chain
  | .down :: _, _, _ => .error "ConnectionError"
  | .up status plen chain :: rest, max_length, new_chain =>
    if status = 200 then
      if max_length < plen then
        match valid_chain chain with
        | .error e => .error e
        | .ok true => rcLoop rest plen (some chain)
        | .ok false => rcLoop rest max_length new_chain
      else rcLoop rest max_length new_chain
    else rcLoop rest max_length new_chain

/-- `Blockchain.resolve_conflicts()`: runs the loop over the peers'
responses and, `if new_chain:` (Python truthiness of an optional list),
replaces the local chain and reports `True`; otherwise the local chain is
kept and the report is `False`.  An exception leaves `self.chain` untouched,
so only the `.ok` results carry a resulting chain. -/
def resolve_conflicts (localChain : List JValue) (responses : List PeerResponse) :
    Except String (List JValue × Bool) :=
  match rcLoop responses (localChain.length : Int) none with
  | .error e => .error e
  | .ok (some c) => if c.isEmpty then .ok (localChain, false) else .ok (c, true)
  | .ok none => .ok (localChain, false)

/-- A peer response that would be recorded when the running maximum is
`max_length`: reachable, status 200, reported length strictly greater, and a
chain passing `valid_chain`. -/
def qualifies (max_length : Int) : PeerResponse → Prop
  | .down => False
  | .up status plen chain => status = 200 ∧ max_length < plen ∧ valid_chain chain = .ok true

/-- Honest peers (such as the `/chain` endpoint of this very program) report
`length` equal to the actual length of the chain they send. -/
def honestLengths (responses : List PeerResponse) : Prop :=
  ∀ status plen chain, PeerResponse.up status plen chain ∈ responses → plen = (chain.length : Int)

/-! ### Ledger histories: `__init__` and sequences of operations -/

def emptyLedger : Blockchain := ⟨[], [], []⟩

/-- The genesis block created by `__init__`:
`self.new_block(previous_hash=1, proof=100)` on the empty state — the int
`1` is truthy, so it lands verbatim in `previous_hash`. -/
def genesisB (ts : String) : JValue := mkBlock 1 ts [] (.jint 100) (.jint 1)

/-- `Blockchain.__init__` (lines 10-16), `ts` being the construction-time
`time()`. -/
def initLedger (ts : String) : Except String Blockchain :=
  Except.map (fun r => r.2) (new_block emptyLedger (.jint 100) (.jint 1) ts)

/-- One externally triggered ledger mutation: a `/transactions/new` request
(`new_transaction`) or a sealing step (`new_block` with an integer proof and
the default `previous_hash=None`). -/
inductive LedgerOp where
  | tx (sender recipient amount : JValue)
  | seal (proof : Int) (ts : String)

/-- Run a sequence of ledger operations.  `new_transaction`'s returned
index is reported to the HTTP client and does not affect the state, which is
updated unconditionally. -/
def runOps (bc : Blockchain) : List LedgerOp → Except String Blockchain
  | [] => .ok bc
  | .tx s r a :: rest => runOps (new_transaction bc s r a).1 rest
  | .seal p ts :: rest =>
    match new_block bc (.jint p) .jnull ts with
    | .error e => .error e
    | .ok res => runOps res.2 rest

/-- Each sealing step's proof solves the proof-of-work puzzle against the
proof of the chain's previous tip (`100` for genesis). -/
def sealsValid : Int → List LedgerOp → Prop
  | _, [] => True
  | lp, .tx _ _ _ :: rest => sealsValid lp rest
  | lp, .seal p _ :: rest => validProofInt lp p = true ∧ sealsValid p rest

/-! ### Single-field mutation of a block (for the tamper-detection claims) -/

/-- Python dict assignment `d[k] = v` restricted to keys already present
(every mutated field in the claims exists in the block). -/
def setMember (k : String) (v : JValue) : JMembers → JMembers
  | .nil => .nil
  | .cons k2 v2 rest =>
    if k2 == k then .cons k2 v (setMember k v rest) else .cons k2 v2 (setMember k v rest)
termination_by structural x => x

def setField (k : String) (v : JValue) : JValue → JValue
  | .jobj kvs => .jobj (setMember k v kvs)
  | b => b

/-- Replace field `k` of block number `i` (0-based) of a chain by `v`. -/
def mutateAt (chain : List JValue) (i : Nat) (k : String) (v : JValue) : List JValue :=
  match chain.get? i with
  | some b => chain.set i (setField k v b)
  | none => chain

/-! ### Concrete objects used by witnesses and counterexamples -/

def demoGenesis : JValue := genesisB "0.0"

def demoLedger : Blockchain := ⟨[demoGenesis], [], []⟩

/-- The block sealed on top of `demoGenesis` with the proof-of-work solution
`35293` for `last_proof = 100` at time `1.5`. -/
def demoBlock2 : JValue := mkBlock 2 "1.5" [] (.jint 35293) (.jstr (blockHash demoGenesis))

def demoChain : List JValue := [demoGenesis, demoBlock2]

/-! ## Helper lemmas -/

theorem findMember_setMember_ne (k : String) (v : JValue) :
    ∀ (ms : JMembers) (k2 : String), k2 ≠ k →
      findMember (setMember k v ms) k2 = findMember ms k2
  | .nil, _, _ => rfl
  | .cons k3 v3 rest, k2, h => by
    simp only [setMember]
    by_cases hk : (k3 == k)
    · have hkk : k3 = k := by simpa using hk
      have hne : (k3 == k2) = false := by
        simp [hkk]
        exact fun e => absurd e.symm h
      simp [hk, findMember, hne, findMember_setMember_ne k v rest k2 h]
    · simp only [Bool.not_eq_true] at hk
      simp [hk, findMember, findMember_setMember_ne k v rest k2 h]

theorem findMember_setMember_self (k : String) (v : JValue) :
    ∀ (ms : JMembers) (w : JValue), findMember ms k = some w →
      findMember (setMember k v ms) k = some v
  | .cons k3 v3 rest, w, hw => by
    simp only [setMember]
    by_cases hk : (k3 == k)
    · simp [hk, findMember]
    · simp only [Bool.not_eq_true] at hk
      simp only [findMember, hk, Bool.false_eq_true, if_neg, ite_false] at hw ⊢
      exact findMember_setMember_self k v rest w hw

theorem jGet_setField_ne (k k2 : String) (v b : JValue) (h : k2 ≠ k) :
    jGet (setField k v b) k2 = jGet b k2 := by
  cases b
  case jobj kvs => simp [setField, jGet, findMember_setMember_ne k v kvs k2 h]
  all_goals rfl

theorem jGet_setField_self (k : String) (v b w : JValue) (h : jGet b k = .ok w) :
    jGet (setField k v b) k = .ok v := by
  cases b
  case jobj kvs =>
    simp only [jGet] at h ⊢
    cases hf : findMember kvs k with
    | none => rw [hf] at h; simp at h
    | some u => simp [setField, jGet, findMember_setMember_self k v kvs u hf]
  all_goals simp [jGet] at h

theorem checkPair_ok_true_elim (l b : JValue) (h : checkPair l b = .ok true) :
    jGet b "previous_hash" = .ok (.jstr (blockHash l)) ∧
    ∃ p1 p2, jGet l "proof" = .ok p1 ∧ jGet b "proof" = .ok p2 ∧ valid_proof p1 p2 = true := by
  unfold checkPair at h
  split at h
  · simp at h
  next ph hph =>
    split at h
    next hp =>
      subst hp
      refine ⟨hph, ?_⟩
      split at h
      · simp at h
      next p1 hp1 =>
        split at h
        · simp at h
        next p2 hp2 =>
          split at h
          next hv => exact ⟨p1, p2, hp1, hp2, hv⟩
          · simp at h
    · simp at h

theorem checkPair_ok_true_intro (l b p1 p2 : JValue)
    (h1 : jGet b "previous_hash" = .ok (.jstr (blockHash l)))
    (h2 : jGet l "proof" = .ok p1) (h3 : jGet b "proof" = .ok p2)
    (h4 : valid_proof p1 p2 = true) : checkPair l b = .ok true := by
  unfold checkPair
  rw [h1]
  simp [h2, h3, h4]

theorem checkPair_setField_ne (l b : JValue) (k : String) (v : JValue)
    (h1 : k ≠ "previous_hash") (h2 : k ≠ "proof") :
    checkPair l (setField k v b) = checkPair l b := by
  unfold checkPair
  rw [jGet_setField_ne k "previous_hash" v b (Ne.symm h1),
      jGet_setField_ne k "proof" v b (Ne.symm h2)]

theorem checkPair_mut_ph (l b oldph v : JValue) (h : checkPair l b = .ok true)
    (hold : jGet b "previous_hash" = .ok oldph) (hv : v ≠ oldph) :
    checkPair l (setField "previous_hash" v b) = .ok false := by
  obtain ⟨hph, -⟩ := checkPair_ok_true_elim l b h
  have holdeq : oldph = JValue.jstr (blockHash l) := Except.ok.inj (hold.symm.trans hph)
  unfold checkPair
  rw [jGet_setField_self "previous_hash" v b oldph hold]
  simp only []
  rw [if_neg (by rw [← holdeq]; exact hv)]

theorem checkPair_mut_proof (l b p1 oldpf v : JValue) (h : checkPair l b = .ok true)
    (hp1 : jGet l "proof" = .ok p1) (hold : jGet b "proof" = .ok oldpf)
    (hv : valid_proof p1 v = false) :
    checkPair l (setField "proof" v b) = .ok false := by
  obtain ⟨hph, -⟩ := checkPair_ok_true_elim l b h
  unfold checkPair
  rw [jGet_setField_ne "proof" "previous_hash" v b (by decide), hph]
  simp [hp1, jGet_setField_self "proof" v b oldpf hold, hv]

theorem vcLoop_cons_iff (l b : JValue) (r : List JValue) :
    vcLoop l (b :: r) = .ok true ↔ (checkPair l b = .ok true ∧ vcLoop b r = .ok true) := by
  cases hc : checkPair l b with
  | error e => simp [vcLoop, hc]
  | ok v => cases v <;> simp [vcLoop, hc]

theorem vcLoop_append_iff : ∀ (r : List JValue) (l b : JValue),
    vcLoop l (r ++ [b]) = .ok true ↔
      (vcLoop l r = .ok true ∧ checkPair (r.getLastD l) b = .ok true)
  | [], l, b => by
    cases hc : checkPair l b with
    | error e => simp [vcLoop, hc]
    | ok v => cases v <;> simp [vcLoop, hc]
  | x :: xs, l, b => by
    simp only [List.cons_append, vcLoop_cons_iff, vcLoop_append_iff xs x b, List.getLastD_cons]
    tauto

theorem vcLoop_pair_zero (l : JValue) (r : List JValue) (b : JValue)
    (h : vcLoop l r = .ok true) (h0 : r.get? 0 = some b) : checkPair l b = .ok true := by
  cases r with
  | nil => simp at h0
  | cons x xs =>
    have hx : x = b := by simpa using h0
    rw [← hx]
    exact ((vcLoop_cons_iff l x xs).mp h).1

theorem vcLoop_pair_succ : ∀ (r : List JValue) (l : JValue) (i : Nat) (pb b : JValue),
    vcLoop l r = .ok true → r.get? i = some pb → r.get? (i + 1) = some b →
    checkPair pb b = .ok true
  | x :: xs, l, 0, pb, b, h, hp, hb => by
    have hx : x = pb := by simpa using hp
    have hb0 : xs.get? 0 = some b := hb
    rw [← hx]
    exact vcLoop_pair_zero x xs b ((vcLoop_cons_iff l x xs).mp h).2 hb0
  | x :: xs, l, i + 1, pb, b, h, hp, hb =>
    vcLoop_pair_succ xs x i pb b ((vcLoop_cons_iff l x xs).mp h).2 hp hb

theorem vcLoop_set_zero_false (l b' : JValue) (r : List JValue) (b : JValue)
    (h0 : r.get? 0 = some b) (hc : checkPair l b' = .ok false) :
    vcLoop l (r.set 0 b') = .ok false := by
  cases r with
  | nil => simp at h0
  | cons x xs => simp [vcLoop, hc]

theorem vcLoop_set_succ_false : ∀ (r : List JValue) (l : JValue) (i : Nat) (pb b b' : JValue),
    vcLoop l r = .ok true → r.get? i = some pb → r.get? (i + 1) = some b →
    checkPair pb b' = .ok false → vcLoop l (r.set (i + 1) b') = .ok false
  | x :: xs, l, 0, pb, b, b', h, hp, hb, hc => by
    have hx : x = pb := by simpa using hp
    obtain ⟨hcx, hrest⟩ := (vcLoop_cons_iff l x xs).mp h
    have hb0 : xs.get? 0 = some b := hb
    have hfail : vcLoop x (xs.set 0 b') = .ok false :=
      vcLoop_set_zero_false x b' xs b hb0 (hx ▸ hc)
    show vcLoop l (x :: xs.set 0 b') = .ok false
    simp [vcLoop, hcx, hfail]
  | x :: xs, l, i + 1, pb, b, b', h, hp, hb, hc => by
    obtain ⟨hcx, hrest⟩ := (vcLoop_cons_iff l x xs).mp h
    have hfail := vcLoop_set_succ_false xs x i pb b b' hrest hp hb hc
    show vcLoop l (x :: xs.set (i + 1) b') = .ok false
    simp [vcLoop, hcx, hfail]

theorem valid_chain_nil : valid_chain [] = .error "IndexError" := rfl

theorem valid_chain_singleton (b : JValue) : valid_chain [b] = .ok true := rfl

theorem valid_chain_ok_ne_nil (ch : List JValue) (v : Bool) (h : valid_chain ch = .ok v) :
    ch ≠ [] := by
  cases ch with
  | nil => simp [valid_chain] at h
  | cons x xs => simp

theorem set_concat_length : ∀ (l : List JValue) (a x : JValue),
    (l ++ [a]).set l.length x = l ++ [x]
  | [], a, x => rfl
  | y :: ys, a, x => by
    show y :: (ys ++ [a]).set ys.length x = y :: (ys ++ [x])
    rw [set_concat_length ys a x]

theorem get_concat_length : ∀ (l : List JValue) (a : JValue),
    (l ++ [a]).get? l.length = some a
  | [], a => rfl
  | y :: ys, a => by
    show (ys ++ [a]).get? ys.length = some a
    exact get_concat_length ys a

theorem mutateAt_concat (c : List JValue) (b : JValue) (k : String) (v : JValue) :
    mutateAt (c ++ [b]) c.length k v = c ++ [setField k v b] := by
  unfold mutateAt
  rw [get_concat_length c b]
  exact set_concat_length c b (setField k v b)

theorem honestLengths_tail (r : PeerResponse) (rs : List PeerResponse)
    (h : honestLengths (r :: rs)) : honestLengths rs :=
  fun st plen c hm => h st plen c (List.mem_cons_of_mem r hm)

theorem rcLoop_some_stays : ∀ (rs : List PeerResponse) (maxL : Int) (c0 : List JValue)
    (nc : Option (List JValue)), rcLoop rs maxL (some c0) = .ok nc → ∃ c, nc = some c
  | [], _, c0, nc, h => ⟨c0, (Except.ok.inj h).symm⟩
  | .down :: _, _, _, _, h => by simp [rcLoop] at h
  | .up st plen chain :: rs, maxL, c0, nc, h => by
    unfold rcLoop at h
    split at h
    · split at h
      · split at h
        · simp at h
        · exact rcLoop_some_stays rs plen chain nc h
        · exact rcLoop_some_stays rs maxL c0 nc h
      · exact rcLoop_some_stays rs maxL c0 nc h
    · exact rcLoop_some_stays rs maxL c0 nc h

theorem rcLoop_record : ∀ (rs : List PeerResponse) (maxL : Int) (nc : Option (List JValue))
    (c : List JValue), rcLoop rs maxL nc = .ok (some c) →
    nc = some c ∨ (valid_chain c = .ok true ∧ ∃ plen, PeerResponse.up 200 plen c ∈ rs)
  | [], _, nc, c, h => Or.inl (Except.ok.inj h)
  | .down :: _, _, _, _, h => by simp [rcLoop] at h
  | .up st plen chain :: rs, maxL, nc, c, h => by
    unfold rcLoop at h
    split at h
    next hst =>
      split at h
      · split at h
        next heq => simp at h
        next heq =>
          rcases rcLoop_record rs plen (some chain) c h with hl | hr
          · obtain rfl : chain = c := Option.some.inj hl
            exact Or.inr ⟨heq, plen, by rw [← hst]; exact List.mem_cons_self _ _⟩
          · exact Or.inr ⟨hr.1, hr.2.choose, List.mem_cons_of_mem _ hr.2.choose_spec⟩
        next heq =>
          rcases rcLoop_record rs maxL nc c h with hl | hr
          · exact Or.inl hl
          · exact Or.inr ⟨hr.1, hr.2.choose, List.mem_cons_of_mem _ hr.2.choose_spec⟩
      · rcases rcLoop_record rs maxL nc c h with hl | hr
        · exact Or.inl hl
        · exact Or.inr ⟨hr.1, hr.2.choose, List.mem_cons_of_mem _ hr.2.choose_spec⟩
    · rcases rcLoop_record rs maxL nc c h with hl | hr
      · exact Or.inl hl
      · exact Or.inr ⟨hr.1, hr.2.choose, List.mem_cons_of_mem _ hr.2.choose_spec⟩

theorem rcLoop_exists_some : ∀ (rs : List PeerResponse) (maxL : Int)
    (nc nc2 : Option (List JValue)), rcLoop rs maxL nc = .ok nc2 →
    (∃ r ∈ rs, qualifies maxL r) → ∃ c, nc2 = some c
  | [], _, _, _, _, hq => by simp at hq
  | .down :: _, _, _, _, h, _ => by simp [rcLoop] at h
  | .up st plen chain :: rs, maxL, nc, nc2, h, hq => by
    unfold rcLoop at h
    rcases hq with ⟨r, hmem, hr⟩
    rcases List.mem_cons.mp hmem with rfl | hmem2
    · obtain ⟨hst, hlen, hvc⟩ := hr
      rw [if_pos hst, if_pos hlen, hvc] at h
      exact rcLoop_some_stays rs plen chain nc2 h
    · split at h
      · split at h
        · split at h
          · simp at h
          · exact rcLoop_some_stays rs plen chain nc2 h
          · exact rcLoop_exists_some rs maxL nc nc2 h ⟨r, hmem2, hr⟩
        · exact rcLoop_exists_some rs maxL nc nc2 h ⟨r, hmem2, hr⟩
      · exact rcLoop_exists_some rs maxL nc nc2 h ⟨r, hmem2, hr⟩

theorem rcLoop_none_exists : ∀ (rs : List PeerResponse) (maxL : Int) (c : List JValue),
    rcLoop rs maxL none = .ok (some c) → ∃ r ∈ rs, qualifies maxL r
  | [], _, _, h => by simp [rcLoop] at h
  | .down :: _, _, _, h => by simp [rcLoop] at h
  | .up st plen chain :: rs, maxL, c, h => by
    unfold rcLoop at h
    split at h
    next hst =>
      split at h
      next hlen =>
        split at h
        next heq => simp at h
        next heq =>
          exact ⟨.up st plen chain, List.mem_cons_self _ _, hst, hlen, heq⟩
        next heq =>
          obtain ⟨r, hmem, hr⟩ := rcLoop_none_exists rs maxL c h
          exact ⟨r, List.mem_cons_of_mem _ hmem, hr⟩
      next hlen =>
        obtain ⟨r, hmem, hr⟩ := rcLoop_none_exists rs maxL c h
        exact ⟨r, List.mem_cons_of_mem _ hmem, hr⟩
    next hst =>
      obtain ⟨r, hmem, hr⟩ := rcLoop_none_exists rs maxL c h
      exact ⟨r, List.mem_cons_of_mem _ hmem, hr⟩

theorem rcLoop_honest_len : ∀ (rs : List PeerResponse) (maxL : Int)
    (nc : Option (List JValue)) (c : List JValue), honestLengths rs →
    rcLoop rs maxL nc = .ok (some c) → nc = some c ∨ maxL < (c.length : Int)
  | [], _, nc, c, _, h => Or.inl (Except.ok.inj h)
  | .down :: _, _, _, _, _, h => by simp [rcLoop] at h
  | .up st plen chain :: rs, maxL, nc, c, hon, h => by
    unfold rcLoop at h
    split at h
    · split at h
      next hlen =>
        split at h
        · simp at h
        · rcases rcLoop_honest_len rs plen (some chain) c (honestLengths_tail _ rs hon) h with
            hl | hr
          · have hcc : chain = c := Option.some.inj hl
            have hpl := hon st plen chain (List.mem_cons_self _ _)
            right; rw [← hcc, ← hpl]; exact hlen
          · right; exact lt_trans hlen hr
        · exact rcLoop_honest_len rs maxL nc c (honestLengths_tail _ rs hon) h
      · exact rcLoop_honest_len rs maxL nc c (honestLengths_tail _ rs hon) h
    · exact rcLoop_honest_len rs maxL nc c (honestLengths_tail _ rs hon) h

theorem jGet_mkBlock_previous_hash (idx : Int) (ts : String) (txs : List JValue)
    (pf ph : JValue) : jGet (mkBlock idx ts txs pf ph) "previous_hash" = .ok ph := rfl

theorem jGet_mkBlock_proof (idx : Int) (ts : String) (txs : List JValue) (pf ph : JValue) :
    jGet (mkBlock idx ts txs pf ph) "proof" = .ok pf := rfl

theorem jGet_mkBlock_transaction (idx : Int) (ts : String) (txs : List JValue) (pf ph : JValue) :
    jGet (mkBlock idx ts txs pf ph) "transaction" = .ok (.jlist (jarrOfList txs)) := rfl

theorem jGet_mkBlock_index (idx : Int) (ts : String) (txs : List JValue) (pf ph : JValue) :
    jGet (mkBlock idx ts txs pf ph) "index" = .ok (.jint idx) := rfl

theorem getLast?_of_ne_nil : ∀ (l : List JValue) (d : JValue), l ≠ [] →
    l.getLast? = some (l.getLastD d)
  | [], _, h => absurd rfl h
  | [x], _, _ => rfl
  | x :: y :: t, d, _ => by
    rw [List.getLast?_cons_cons, List.getLastD_cons]
    exact getLast?_of_ne_nil (y :: t) x (by simp)

theorem getLastD_concat_blocks (l : List JValue) (a d : JValue) :
    (l ++ [a]).getLastD d = a := by
  rw [List.getLastD_eq_getLast?, List.getLast?_concat]
  rfl

theorem new_block_default (bc : Blockchain) (pf : JValue) (ts : String) (lb : JValue)
    (h : bc.chain.getLast? = some lb) :
    new_block bc pf .jnull ts = .ok (sealWith bc pf (.jstr (blockHash lb)) ts) := by
  unfold new_block
  simp [pyTruthy, h]

theorem new_block_falsy (bc : Blockchain) (pf ph : JValue) (ts : String)
    (h : pyTruthy ph = false) :
    new_block bc pf ph ts = new_block bc pf .jnull ts := by
  unfold new_block
  rw [h]
  rfl

theorem seal_extends (bc : Blockchain) (p : Int) (ts : String) (lp : Int)
    (hne : bc.chain ≠ []) (hvalid : valid_chain bc.chain = .ok true)
    (hlast : jGet (bc.chain.getLastD .jnull) "proof" = .ok (.jint lp))
    (hp : validProofInt lp p = true) :
    ∃ blk bc2, new_block bc (.jint p) .jnull ts = .ok (blk, bc2) ∧
      bc2.chain = bc.chain ++ [blk] ∧ bc2.current_transactions = [] ∧
      valid_chain bc2.chain = .ok true ∧
      jGet (bc2.chain.getLastD .jnull) "proof" = .ok (.jint p) := by
  have hget : bc.chain.getLast? = some (bc.chain.getLastD .jnull) :=
    getLast?_of_ne_nil bc.chain .jnull hne
  refine ⟨_, _, new_block_default bc (.jint p) ts _ hget, rfl, rfl, ?_, ?_⟩
  · show valid_chain (bc.chain ++
      [mkBlock ((bc.chain.length : Int) + 1) ts bc.current_transactions (.jint p)
        (.jstr (blockHash (bc.chain.getLastD .jnull)))]) = .ok true
    cases hch : bc.chain with
    | nil => exact absurd hch hne
    | cons b0 rest =>
      rw [hch] at hvalid hlast
      show vcLoop b0 (rest ++ [_]) = .ok true
      rw [vcLoop_append_iff]
      refine ⟨hvalid, ?_⟩
      rw [List.getLastD_cons] at hlast
      exact checkPair_ok_true_intro (rest.getLastD b0) _ (.jint lp) (.jint p)
        (by rw [List.getLastD_cons]; exact jGet_mkBlock_previous_hash _ _ _ _ _)
        hlast (jGet_mkBlock_proof _ _ _ _ _) hp
  · show jGet ((bc.chain ++ [_]).getLastD .jnull) "proof" = .ok (.jint p)
    rw [getLastD_concat_blocks]
    exact jGet_mkBlock_proof _ _ _ _ _

theorem new_transaction_chain (bc : Blockchain) (s r a : JValue) :
    (new_transaction bc s r a).1.chain = bc.chain := rfl

theorem runOps_sealed : ∀ (ops : List LedgerOp) (bc : Blockchain) (lp : Int),
    bc.chain ≠ [] → valid_chain bc.chain = .ok true →
    jGet (bc.chain.getLastD .jnull) "proof" = .ok (.jint lp) →
    sealsValid lp ops →
    ∃ bc2 lp2, runOps bc ops = .ok bc2 ∧ bc2.chain ≠ [] ∧
      valid_chain bc2.chain = .ok true ∧
      jGet (bc2.chain.getLastD .jnull) "proof" = .ok (.jint lp2)
  | [], bc, lp, hne, hvalid, hlast, _ => ⟨bc, lp, rfl, hne, hvalid, hlast⟩
  | .tx s r a :: rest, bc, lp, hne, hvalid, hlast, hs => by
    have hchain : (new_transaction bc s r a).1.chain = bc.chain := rfl
    have hs2 : sealsValid lp rest := hs
    exact runOps_sealed rest (new_transaction bc s r a).1 lp (by rw [hchain]; exact hne)
      (by rw [hchain]; exact hvalid) (by rw [hchain]; exact hlast) hs2
  | .seal p ts :: rest, bc, lp, hne, hvalid, hlast, hs => by
    obtain ⟨hp, hs2⟩ := hs
    obtain ⟨blk, bc2, hnb, hch, -, hvalid2, hlast2⟩ :=
      seal_extends bc p ts lp hne hvalid hlast hp
    have hne2 : bc2.chain ≠ [] := by rw [hch]; simp
    obtain ⟨bc3, lp3, hrun, h1, h2, h3⟩ :=
      runOps_sealed rest bc2 p hne2 hvalid2 hlast2 hs2
    refine ⟨bc3, lp3, ?_, h1, h2, h3⟩
    show (match new_block bc (.jint p) .jnull ts with
      | Except.error e => Except.error e
      | Except.ok res => runOps res.2 rest) = Except.ok bc3
    rw [hnb]
    exact hrun

theorem setAdd_idem (l : List String) (x : String) : setAdd (setAdd l x) x = setAdd l x := by
  unfold setAdd
  by_cases hm : x ∈ l
  · simp [hm]
  · simp [hm]

theorem setAdd_nodup (l : List String) (x : String) (h : l.Nodup) : (setAdd l x).Nodup := by
  unfold setAdd
  split
  · exact h
  next hm =>
    refine List.Nodup.append h (List.nodup_singleton x) ?_
    intro y hy hz
    simp only [List.mem_singleton] at hz
    subst hz
    exact hm hy

theorem setAdd_mem (l : List String) (x : String) : x ∈ setAdd l x := by
  unfold setAdd
  split
  next hm => exact hm
  · simp

theorem splitNetloc_clean : ∀ (hp : List Char),
    (∀ c ∈ hp, (c == '/' || c == '?' || c == '#') = false) → splitNetloc hp = hp
  | [], _ => rfl
  | c :: cs, h => by
    have hc := h c (List.mem_cons_self _ _)
    show List.takeWhile _ (c :: cs) = c :: cs
    rw [List.takeWhile_cons]
    simp only [hc, Bool.not_false, if_true]
    rw [show List.takeWhile (fun c => !(c == '/' || c == '?' || c == '#')) cs = splitNetloc cs
      from rfl]
    rw [splitNetloc_clean cs (fun d hd => h d (List.mem_cons_of_mem _ hd))]

theorem netlocOf_protocol (hp : List Char)
    (h : ∀ c ∈ hp, (c == '/' || c == '?' || c == '#') = false) :
    netlocOf (String.mk ('h' :: 't' :: 't' :: 'p' :: ':' :: '/' :: '/' :: hp)) = String.mk hp := by
  have h1 : netlocOf (String.mk ('h' :: 't' :: 't' :: 'p' :: ':' :: '/' :: '/' :: hp)) =
      String.mk (splitNetloc hp) := rfl
  rw [h1, splitNetloc_clean hp h]

/-! ## Claim theorems -/

/-- Claim C1 (counterexample): the claim that resolution never shortens the
local chain is false as stated.  A reachable peer that reports length 5 while
sending a valid single-block chain makes `resolve_conflicts` replace a local
two-block chain by that one-block chain: the code compares the reported
length but adopts the reported chain. -/
theorem c1_counterexample :
    resolve_conflicts [JValue.jnull, JValue.jnull] [PeerResponse.up 200 5 [JValue.jnull]] =
      .ok ([JValue.jnull], true) ∧
    ([JValue.jnull] : List JValue).length < ([JValue.jnull, JValue.jnull] : List JValue).length :=
  ⟨rfl, by decide⟩

/-- Claim C1 (amended): provided every reachable peer reports a length equal
to the actual length of the chain it sends — as the `/chain` endpoint of this
program always does — consensus resolution never shortens the local chain:
whenever `resolve_conflicts` returns normally, the resulting chain is at
least as long as the local one (and an exceptional exit leaves `self.chain`
untouched by construction). -/
theorem c1_no_shortening_with_honest_lengths (localChain : List JValue)
    (rs : List PeerResponse) (c : List JValue) (b : Bool)
    (hon : honestLengths rs) (h : resolve_conflicts localChain rs = .ok (c, b)) :
    localChain.length ≤ c.length := by
  unfold resolve_conflicts at h
  split at h
  · simp at h
  next c' heq =>
    have hlen := rcLoop_honest_len rs (localChain.length : Int) none c' hon heq
    rcases hlen with hl | hr
    · simp at hl
    · split at h
      · simp only [Except.ok.injEq, Prod.mk.injEq] at h
        obtain ⟨rfl, -⟩ := h
        exact le_refl _
      · simp only [Except.ok.injEq, Prod.mk.injEq] at h
        obtain ⟨rfl, -⟩ := h
        exact le_of_lt (by exact_mod_cast hr)
  next heq =>
    simp only [Except.ok.injEq, Prod.mk.injEq] at h
    obtain ⟨rfl, -⟩ := h
    exact le_refl _

/-- Claim C1 (witness): the amended theorem applied to an empty local chain
and one honest peer sending a valid one-block chain. -/
theorem c1_witness : (([] : List JValue)).length ≤ ([JValue.jnull] : List JValue).length :=
  c1_no_shortening_with_honest_lengths [] [PeerResponse.up 200 1 [JValue.jnull]]
    [JValue.jnull] true
    (by
      intro st plen chain hm
      simp only [List.mem_singleton] at hm
      injection hm with h1 h2 h3
      subst h2; subst h3
      decide)
    (by decide)

/-- Claim C2: the claim is what the spec demands (malformed candidates are
rejected by returning false, never by raising), and the code violates it:
`valid_chain` evaluates `block['previous_hash']` (and `chain[0]`) unguarded,
so a candidate of two empty dicts raises `KeyError` and a candidate of two
non-dict entries raises `TypeError` instead of returning `False`. -/
theorem c2_malformed_chain_raises :
    valid_chain [JValue.jobj .nil, JValue.jobj .nil] = .error "KeyError" ∧
    valid_chain [JValue.jnull, JValue.jnull] = .error "TypeError" :=
  ⟨rfl, rfl⟩

/-- Claim C5 (counterexample): on the empty candidate chain `valid_chain`
does not return true — `last_block = chain[0]` raises `IndexError` before
the loop is ever reached. -/
theorem c5_counterexample :
    valid_chain ([] : List JValue) = .error "IndexError" ∧
    valid_chain ([] : List JValue) ≠ .ok true :=
  ⟨rfl, by decide⟩

/-- Claim C5 (amended): a single-block candidate is trivially valid — the
pairwise loop never executes and the verdict is `True` for every block
whatsoever; the empty candidate, however, raises `IndexError` instead of
being trivially valid. -/
theorem c5_single_block_trivially_valid :
    (∀ b : JValue, valid_chain [b] = .ok true) ∧
    valid_chain ([] : List JValue) = .error "IndexError" :=
  ⟨fun _ => rfl, rfl⟩

/-- Claim C6: `resolve_conflicts` replaces the local chain and returns true
exactly when some reachable peer responds with status 200, a reported length
strictly above the local chain length (the initial running maximum — a tie
never qualifies), and a chain passing `valid_chain`; with no such peer the
local chain is returned unchanged with result false.  Stated for the runs
that return normally; an exceptional exit replaces nothing. -/
theorem c6_replacement_characterization (localChain : List JValue) (rs : List PeerResponse)
    (c : List JValue) (b : Bool) (h : resolve_conflicts localChain rs = .ok (c, b)) :
    (b = true ↔ ∃ r ∈ rs, qualifies (localChain.length : Int) r) ∧
    (b = false → c = localChain) := by
  unfold resolve_conflicts at h
  split at h
  · simp at h
  next c' heq =>
    have hvalid : valid_chain c' = .ok true := by
      rcases rcLoop_record rs (localChain.length : Int) none c' heq with hl | hr
      · simp at hl
      · exact hr.1
    have hne : c' ≠ [] := valid_chain_ok_ne_nil c' true hvalid
    rw [if_neg (by simpa using hne)] at h
    simp only [Except.ok.injEq, Prod.mk.injEq] at h
    obtain ⟨rfl, rfl⟩ := h
    refine ⟨⟨fun _ => rcLoop_none_exists rs _ c' heq, fun _ => rfl⟩, fun hb => by simp at hb⟩
  next heq =>
    simp only [Except.ok.injEq, Prod.mk.injEq] at h
    obtain ⟨rfl, rfl⟩ := h
    refine ⟨⟨fun hb => by simp at hb, ?_⟩, fun _ => rfl⟩
    rintro ⟨r, hmem, hr⟩
    obtain ⟨c2, hc2⟩ := rcLoop_exists_some rs (localChain.length : Int) none none heq ⟨r, hmem, hr⟩
    simp at hc2

/-- Claim C6 (witness): one qualifying peer (status 200, reported length 5
against a local length of 1, valid one-block chain) makes the resolver
report a replacement. -/
theorem c6_witness :
    (true = true ↔ ∃ r ∈ [PeerResponse.up 200 5 [JValue.jnull]],
      qualifies (([JValue.jnull] : List JValue).length : Int) r) ∧
    (true = false → [JValue.jnull] = [JValue.jnull]) :=
  c6_replacement_characterization [JValue.jnull] [PeerResponse.up 200 5 [JValue.jnull]]
    [JValue.jnull] true (by decide)

/-- Claim C3: every chain grown from the constructor's genesis block by any
interleaving of `new_transaction` calls and sealings — each seal through
`new_block` with the default previous hash and a proof solving the puzzle
against the previous tip's proof — passes `valid_chain`. -/
theorem c3_sealed_chains_valid (t0 : String) (ops : List LedgerOp) (bc0 : Blockchain)
    (hinit : initLedger t0 = .ok bc0) (hvalidops : sealsValid 100 ops) :
    ∃ bc, runOps bc0 ops = .ok bc ∧ valid_chain bc.chain = .ok true := by
  have hg : initLedger t0 = .ok ⟨[genesisB t0], [], []⟩ := rfl
  have hbc0 : bc0 = ⟨[genesisB t0], [], []⟩ := Except.ok.inj (hinit.symm.trans hg)
  subst hbc0
  obtain ⟨bc2, lp2, hrun, -, hvalid2, -⟩ :=
    runOps_sealed ops ⟨[genesisB t0], [], []⟩ 100 (by simp) rfl rfl hvalidops
  exact ⟨bc2, hrun, hvalid2⟩

/-- Claim C3 (witness): from genesis at time 0.0, add one transaction and
seal it with the concrete proof-of-work solution 35293 for the genesis
proof 100; the resulting chain is valid. -/
theorem c3_witness :
    ∃ bc, runOps ⟨[genesisB "0.0"], [], []⟩
        [LedgerOp.tx (.jstr "0") (.jstr "alice") (.jint 1), LedgerOp.seal 35293 "1.5"] =
        .ok bc ∧ valid_chain bc.chain = .ok true :=
  c3_sealed_chains_valid "0.0"
    [LedgerOp.tx (.jstr "0") (.jstr "alice") (.jint 1), LedgerOp.seal 35293 "1.5"]
    ⟨[genesisB "0.0"], [], []⟩ rfl
    (show validProofInt 100 35293 = true ∧ True from ⟨by decide, trivial⟩)

/-- Claim C7: on any ledger state with a nonempty chain (every constructed
ledger has at least the genesis block), sealing via `new_block` produces a
block whose `transaction` field is exactly the pending pool at that moment,
in order; the pool is left empty and the chain has grown by exactly the new
block.  The other mutators do not grow the chain: `new_transaction` and
`register_node` leave it untouched, and `resolve_conflicts` either keeps the
local chain or swaps in a chain reported verbatim by some peer. -/
theorem c7_seal_effects (bc : Blockchain) (proof : JValue) (ts : String)
    (hne : bc.chain ≠ []) :
    ∃ blk bc2, new_block bc proof .jnull ts = .ok (blk, bc2) ∧
      jGet blk "transaction" = .ok (.jlist (jarrOfList bc.current_transactions)) ∧
      bc2.current_transactions = [] ∧
      bc2.chain = bc.chain ++ [blk] ∧
      (∀ s r a, (new_transaction bc s r a).1.chain = bc.chain) ∧
      (∀ addr, (register_node bc addr).chain = bc.chain) ∧
      (∀ (localChain : List JValue) (rs : List PeerResponse) (c : List JValue) (repl : Bool),
        resolve_conflicts localChain rs = .ok (c, repl) →
        c = localChain ∨ ∃ st plen, PeerResponse.up st plen c ∈ rs) := by
  have hget : bc.chain.getLast? = some (bc.chain.getLastD .jnull) :=
    getLast?_of_ne_nil bc.chain .jnull hne
  refine ⟨_, _, new_block_default bc proof ts _ hget,
    jGet_mkBlock_transaction _ _ _ _ _, rfl, rfl, fun s r a => rfl, fun addr => rfl, ?_⟩
  intro localChain rs c repl h
  unfold resolve_conflicts at h
  split at h
  · simp at h
  next c' heq =>
    split at h
    · simp only [Except.ok.injEq, Prod.mk.injEq] at h
      exact Or.inl h.1.symm
    · simp only [Except.ok.injEq, Prod.mk.injEq] at h
      obtain ⟨rfl, -⟩ := h
      rcases rcLoop_record rs (localChain.length : Int) none c' heq with hl | hr
      · simp at hl
      · obtain ⟨plen, hmem⟩ := hr.2
        exact Or.inr ⟨200, plen, hmem⟩
  next heq =>
    simp only [Except.ok.injEq, Prod.mk.injEq] at h
    exact Or.inl h.1.symm

/-- Claim C7 (witness): sealing on a one-block ledger with one pending
transaction record. -/
theorem c7_witness :
    ∃ blk bc2, new_block ⟨[JValue.jnull], [JValue.jstr "t"], []⟩ (.jint 7) .jnull "2.0" =
        .ok (blk, bc2) ∧
      jGet blk "transaction" = .ok (.jlist (jarrOfList [JValue.jstr "t"])) ∧
      bc2.current_transactions = [] ∧
      bc2.chain = [JValue.jnull] ++ [blk] ∧
      (∀ s r a, (new_transaction ⟨[JValue.jnull], [JValue.jstr "t"], []⟩ s r a).1.chain =
        [JValue.jnull]) ∧
      (∀ addr, (register_node ⟨[JValue.jnull], [JValue.jstr "t"], []⟩ addr).chain =
        [JValue.jnull]) ∧
      (∀ (localChain : List JValue) (rs : List PeerResponse) (c : List JValue) (repl : Bool),
        resolve_conflicts localChain rs = .ok (c, repl) →
        c = localChain ∨ ∃ st plen, PeerResponse.up st plen c ∈ rs) :=
  c7_seal_effects ⟨[JValue.jnull], [JValue.jstr "t"], []⟩ (.jint 7) "2.0" (by simp)

/-- Claim C10: an explicitly passed falsy `previous_hash` (`0`, the empty
string, `False` — anything with `pyTruthy` false, like the omitted `None`)
is discarded by `previous_hash or self.hash(self.chain[-1])`: on a nonempty
chain the call behaves exactly like the omitted-argument call and the sealed
block's `previous_hash` is the canonical hash of the current last block. -/
theorem c10_falsy_previous_hash (bc : Blockchain) (proof ph : JValue) (ts : String)
    (hne : bc.chain ≠ []) (hfalsy : pyTruthy ph = false) :
    new_block bc proof ph ts = new_block bc proof .jnull ts ∧
    ∃ lb blk bc2, bc.chain.getLast? = some lb ∧
      new_block bc proof ph ts = .ok (blk, bc2) ∧
      jGet blk "previous_hash" = .ok (.jstr (blockHash lb)) := by
  have heq := new_block_falsy bc proof ph ts hfalsy
  have hget := getLast?_of_ne_nil bc.chain .jnull hne
  refine ⟨heq, bc.chain.getLastD .jnull,
    (sealWith bc proof (.jstr (blockHash (bc.chain.getLastD .jnull))) ts).1,
    (sealWith bc proof (.jstr (blockHash (bc.chain.getLastD .jnull))) ts).2,
    hget, ?_, ?_⟩
  · rw [heq]
    exact new_block_default bc proof ts _ hget
  · exact jGet_mkBlock_previous_hash _ _ _ _ _

/-- Claim C10 (witness): passing the falsy int `0` as `previous_hash` on the
one-block demo ledger equals the default call, and the sealed block links to
the hash of the genesis block. -/
theorem c10_witness :
    new_block demoLedger (.jint 5) (.jint 0) "2.0" = new_block demoLedger (.jint 5) .jnull "2.0" ∧
    ∃ lb blk bc2, demoLedger.chain.getLast? = some lb ∧
      new_block demoLedger (.jint 5) (.jint 0) "2.0" = .ok (blk, bc2) ∧
      jGet blk "previous_hash" = .ok (.jstr (blockHash lb)) :=
  c10_falsy_previous_hash demoLedger (.jint 5) (.jint 0) "2.0" (by simp [demoLedger]) (by decide)

/-- Claim C8: whenever the proof-of-work puzzle for `last_proof` has a
solution at all, the solver terminates with a proof that `valid_proof`
accepts — indeed the least such natural number, since the loop counts up
from zero; `valid_proof` is literally the SHA-256 hex digest check on the
concatenated decimal representations with a four-zero prefix. -/
theorem c8_proof_of_work_correct (last_proof : Int)
    (h : ∃ p : Nat, validProofNum last_proof p = true) :
    validProofNum last_proof (proof_of_work last_proof h) = true ∧
    ∀ q : Nat, q < proof_of_work last_proof h → validProofNum last_proof q = false := by
  refine ⟨Nat.find_spec h, fun q hq => ?_⟩
  have := Nat.find_min h hq
  simpa using this

/-- Claim C8 (witness): for the genesis proof 100, the concrete solution
35293 certifies solvability, and the solver's output is a valid,
minimal proof. -/
theorem c8_witness :
    validProofNum 100 (proof_of_work 100 ⟨35293, by decide⟩) = true ∧
    ∀ q : Nat, q < proof_of_work 100 ⟨35293, by decide⟩ → validProofNum 100 q = false :=
  c8_proof_of_work_correct 100 ⟨35293, by decide⟩

/-- Claim C9 (counterexample): registering the plain `host:port` address
`192.168.0.5:5000` does not add its canonical host:port form to the peer
set — `urlparse` finds no `//`, so its `netloc` is the empty string, and the
empty string is what lands in the set. -/
theorem c9_counterexample :
    (register_node ⟨[], [], []⟩ "192.168.0.5:5000").nodes = [""] ∧
    "192.168.0.5:5000" ∉ (register_node ⟨[], [], []⟩ "192.168.0.5:5000").nodes :=
  ⟨rfl, by decide⟩

/-- Claim C9 (amended): `register_node` adds `urlparse(address).netloc` to
the peer set — which is the address's host:port part whenever the address
carries it after `//` (e.g. `http://host:port`), and the empty string for
scheme-less `host:port` strings.  Registration is idempotent and the set
never acquires duplicates. -/
theorem c9_register_node_properties :
    (∀ (bc : Blockchain) (a : String),
      register_node (register_node bc a) a = register_node bc a) ∧
    (∀ (bc : Blockchain) (a : String), bc.nodes.Nodup → (register_node bc a).nodes.Nodup) ∧
    (∀ (bc : Blockchain) (a : String), netlocOf a ∈ (register_node bc a).nodes) ∧
    (∀ (bc : Blockchain) (hp : List Char),
      (∀ c ∈ hp, (c == '/' || c == '?' || c == '#') = false) →
      (register_node bc (String.mk ('h' :: 't' :: 't' :: 'p' :: ':' :: '/' :: '/' :: hp))).nodes
        = setAdd bc.nodes (String.mk hp)) := by
  refine ⟨?_, ?_, ?_, ?_⟩
  · intro bc a
    simp [register_node, setAdd_idem]
  · intro bc a h
    exact setAdd_nodup bc.nodes (netlocOf a) h
  · intro bc a
    exact setAdd_mem bc.nodes (netlocOf a)
  · intro bc hp h
    show setAdd bc.nodes (netlocOf (String.mk ('h' :: 't' :: 't' :: 'p' :: ':' :: '/' :: '/' :: hp)))
      = setAdd bc.nodes (String.mk hp)
    rw [netlocOf_protocol hp h]

/-- Claim C9 (witness): the amended theorem at a concrete ledger and the
address `http://h:1`. -/
theorem c9_witness :
    register_node (register_node ⟨[], [], ["x"]⟩ "http://h:1") "http://h:1" =
      register_node ⟨[], [], ["x"]⟩ "http://h:1" ∧
    (register_node ⟨[], [], ["x"]⟩ "http://h:1").nodes.Nodup ∧
    netlocOf "http://h:1" ∈ (register_node ⟨[], [], ["x"]⟩ "http://h:1").nodes ∧
    (register_node ⟨[], [], ["x"]⟩
        (String.mk ('h' :: 't' :: 't' :: 'p' :: ':' :: '/' :: '/' :: ['h', ':', '1']))).nodes
      = setAdd ["x"] (String.mk ['h', ':', '1']) :=
  ⟨c9_register_node_properties.1 ⟨[], [], ["x"]⟩ "http://h:1",
   c9_register_node_properties.2.1 ⟨[], [], ["x"]⟩ "http://h:1" (by decide),
   c9_register_node_properties.2.2.1 ⟨[], [], ["x"]⟩ "http://h:1",
   c9_register_node_properties.2.2.2 ⟨[], [], ["x"]⟩ ['h', ':', '1'] (by decide)⟩

/-- Claim C4 (counterexample): the claim fails on the final block's fields
that no validity check reads.  The two-block chain sealed from genesis with
the valid proof 35293 stays `valid_chain`-true after the last block's
`index` field is changed from 2 to 99: the loop checks only hash linkage and
proof pairs, and nothing links back to the final block. -/
theorem c4_counterexample :
    runOps demoLedger [LedgerOp.seal 35293 "1.5"] = .ok ⟨demoChain, [], []⟩ ∧
    validProofInt 100 35293 = true ∧
    jGet demoBlock2 "index" = .ok (.jint 2) ∧
    mutateAt demoChain 1 "index" (.jint 99) =
      [demoGenesis, setField "index" (.jint 99) demoBlock2] ∧
    jGet (setField "index" (.jint 99) demoBlock2) "index" = .ok (.jint 99) ∧
    valid_chain (mutateAt demoChain 1 "index" (.jint 99)) = .ok true :=
  ⟨rfl, by decide, rfl, rfl, rfl, by decide⟩

/-- Claim C4 (amended): for any chain accepted by `valid_chain`, changing a
non-genesis block's `previous_hash` to any different value, or its `proof`
to any value failing `valid_proof` against the preceding block's proof,
makes `valid_chain` return false; by contrast, changing any field of the
final block other than `previous_hash` and `proof` (its `index`,
`timestamp`, or `transaction`) leaves the chain accepted.  (Detecting
`index`/`timestamp`/`transaction` changes in interior blocks rests on
SHA-256 collision-freedom and is not a provable statement.) -/
theorem c4_tamper_detection :
    (∀ (chain : List JValue) (i : Nat) (pb b oldph v : JValue),
      valid_chain chain = .ok true → chain.get? i = some pb →
      chain.get? (i + 1) = some b → jGet b "previous_hash" = .ok oldph → v ≠ oldph →
      valid_chain (mutateAt chain (i + 1) "previous_hash" v) = .ok false) ∧
    (∀ (chain : List JValue) (i : Nat) (pb b p1 oldpf v : JValue),
      valid_chain chain = .ok true → chain.get? i = some pb →
      chain.get? (i + 1) = some b → jGet pb "proof" = .ok p1 → jGet b "proof" = .ok oldpf →
      valid_proof p1 v = false →
      valid_chain (mutateAt chain (i + 1) "proof" v) = .ok false) ∧
    (∀ (c : List JValue) (b : JValue) (k : String) (v : JValue),
      valid_chain (c ++ [b]) = .ok true → k ≠ "previous_hash" → k ≠ "proof" →
      valid_chain (mutateAt (c ++ [b]) c.length k v) = .ok true) := by
  refine ⟨?_, ?_, ?_⟩
  · intro chain i pb b oldph v hvalid hpb hb hold hv
    cases chain with
    | nil => simp at hpb
    | cons b0 rest =>
      have hvl : vcLoop b0 rest = .ok true := hvalid
      have hbr : rest.get? i = some b := hb
      unfold mutateAt
      rw [show (b0 :: rest).get? (i + 1) = some b from hb]
      cases i with
      | zero =>
        have hpb0 : b0 = pb := by simpa using hpb
        have hcp : checkPair b0 b = .ok true := vcLoop_pair_zero b0 rest b hvl hbr
        have hfail : checkPair b0 (setField "previous_hash" v b) = .ok false :=
          checkPair_mut_ph b0 b oldph v hcp hold hv
        show vcLoop b0 (rest.set 0 _) = .ok false
        exact vcLoop_set_zero_false b0 _ rest b hbr hfail
      | succ j =>
        have hpbr : rest.get? j = some pb := hpb
        have hcp : checkPair pb b = .ok true := vcLoop_pair_succ rest b0 j pb b hvl hpbr hbr
        have hfail : checkPair pb (setField "previous_hash" v b) = .ok false :=
          checkPair_mut_ph pb b oldph v hcp hold hv
        show vcLoop b0 (rest.set (j + 1) _) = .ok false
        exact vcLoop_set_succ_false rest b0 j pb b _ hvl hpbr hbr hfail
  · intro chain i pb b p1 oldpf v hvalid hpb hb hp1 hold hv
    cases chain with
    | nil => simp at hpb
    | cons b0 rest =>
      have hvl : vcLoop b0 rest = .ok true := hvalid
      have hbr : rest.get? i = some b := hb
      unfold mutateAt
      rw [show (b0 :: rest).get? (i + 1) = some b from hb]
      cases i with
      | zero =>
        have hpb0 : b0 = pb := by simpa using hpb
        have hcp : checkPair b0 b = .ok true := vcLoop_pair_zero b0 rest b hvl hbr
        have hfail : checkPair b0 (setField "proof" v b) = .ok false :=
          checkPair_mut_proof b0 b p1 oldpf v hcp (hpb0 ▸ hp1) hold hv
        show vcLoop b0 (rest.set 0 _) = .ok false
        exact vcLoop_set_zero_false b0 _ rest b hbr hfail
      | succ j =>
        have hpbr : rest.get? j = some pb := hpb
        have hcp : checkPair pb b = .ok true := vcLoop_pair_succ rest b0 j pb b hvl hpbr hbr
        have hfail : checkPair pb (setField "proof" v b) = .ok false :=
          checkPair_mut_proof pb b p1 oldpf v hcp hp1 hold hv
        show vcLoop b0 (rest.set (j + 1) _) = .ok false
        exact vcLoop_set_succ_false rest b0 j pb b _ hvl hpbr hbr hfail
  · intro c b k v hvalid h1 h2
    rw [mutateAt_concat]
    cases c with
    | nil => exact valid_chain_singleton _
    | cons c0 cr =>
      have hvl : vcLoop c0 (cr ++ [b]) = .ok true := hvalid
      obtain ⟨hpre, hcp⟩ := (vcLoop_append_iff cr c0 b).mp hvl
      show vcLoop c0 (cr ++ [setField k v b]) = .ok true
      rw [vcLoop_append_iff]
      exact ⟨hpre, by rw [checkPair_setField_ne _ b k v h1 h2]; exact hcp⟩

/-- Claim C4 (witness): on the concrete two-block demo chain, tampering with
the second block's `previous_hash` or breaking its `proof` flips the verdict
to false, while changing its `timestamp` leaves the chain accepted. -/
theorem c4_witness :
    valid_chain (mutateAt demoChain 1 "previous_hash" (.jstr "tampered")) = .ok false ∧
    valid_chain (mutateAt demoChain 1 "proof" (.jint 0)) = .ok false ∧
    valid_chain (mutateAt ([demoGenesis] ++ [demoBlock2])
      ([demoGenesis] : List JValue).length "timestamp" (.jfloat "9.9")) = .ok true := by
  have hvalid : valid_chain demoChain = .ok true := by decide
  refine ⟨c4_tamper_detection.1 demoChain 0 demoGenesis demoBlock2
      (.jstr (blockHash demoGenesis)) (.jstr "tampered") hvalid rfl rfl rfl (by decide),
    c4_tamper_detection.2.1 demoChain 0 demoGenesis demoBlock2
      (.jint 100) (.jint 35293) (.jint 0) hvalid rfl rfl rfl rfl (by decide),
    c4_tamper_detection.2.2 [demoGenesis] demoBlock2 "timestamp" (.jfloat "9.9")
      hvalid (by decide) (by decide)⟩
